import Mathlib

/-!
Verification of the dice-formula parser/evaluator and the description
classifier of the dnd5e spell-ratings repository (source file
src/dnd5e_sr/data.py).

Python strings are modelled as lists of characters (`Str`).  Dynamic
attribute values that can be `None`, an `int`, or a marker string in the
Python code are modelled by dedicated inductive types (`MultVal`,
`ModVal`), and the exceptions that can escape the relevant code paths
(`ValueError`, `IndexError`, `TypeError`) as values of `PyErr` inside
`Except` results.  The random samples that `randint` would draw are
supplied by an explicit `entropy` function, so both evaluator operations
are pure functions of the parsed state plus that source.
-/

abbrev Str := List Char

/-! ## Python primitive operations on strings -/

/-- Python `str.index(c)` restricted to a single character: index of the
first occurrence, or `none` (Python raises `ValueError`). -/
def firstIdx (c : Char) : Str → Option Nat
  | [] => none
  | x :: xs => if x = c then some 0 else (firstIdx c xs).map (· + 1)

/-- Python `str.count(c)` for a single character. -/
def pyCount (c : Char) : Str → Nat
  | [] => 0
  | x :: xs => (if x = c then 1 else 0) + pyCount c xs

/-- Python `str.split(c)` for a single-character separator: splits at every
occurrence, keeping empty pieces, so the result always has
`count + 1` elements. -/
def pySplit (sep : Char) : Str → List Str
  | [] => [[]]
  | x :: xs =>
    if x = sep then [] :: pySplit sep xs
    else
      match pySplit sep xs with
      | [] => [[x]]
      | s :: ss => (x :: s) :: ss

/-- Drop leading whitespace characters. -/
def dropWS : Str → Str
  | [] => []
  | c :: cs => if c.isWhitespace then dropWS cs else c :: cs

/-- Python `str.strip()`: remove leading and trailing whitespace.
(Python strips a slightly larger whitespace set than ASCII
space/tab/CR/LF; the difference is irrelevant to dice formulas.) -/
def pyStrip (s : Str) : Str := (dropWS (dropWS s).reverse).reverse

/-- Accumulator loop for reading a run of decimal digits. -/
def pyDigitsAux (acc : Nat) : Str → Option Nat
  | [] => some acc
  | c :: cs => if c.isDigit then pyDigitsAux (acc * 10 + (c.toNat - 48)) cs else none

/-- A non-empty all-digit string read as a natural number, `none` otherwise. -/
def pyDigits? (s : Str) : Option Nat :=
  match s with
  | [] => none
  | _ => pyDigitsAux 0 s

/-- Sign-and-digits reading on an already-stripped string: one optional
sign, then a non-empty run of decimal digits. -/
def pyIntCore : Str → Option Int
  | [] => none
  | c :: rest =>
    if c = '-' then (pyDigits? rest).map (fun v : Nat => -(v : Int))
    else if c = '+' then (pyDigits? rest).map (fun v : Nat => (v : Int))
    else (pyDigits? (c :: rest)).map (fun v : Nat => (v : Int))

/-- Python `int(s)`: surrounding whitespace is ignored, one optional sign,
then a non-empty run of decimal digits; anything else raises `ValueError`
(modelled as `none`).  (Python additionally allows digit-group underscores
and non-ASCII digits; no dice formula uses those.) -/
def pyInt (s : Str) : Option Int := pyIntCore (pyStrip s)

/-- Python `sep.join(parts)`. -/
def pyJoin (sep : Str) : List Str → Str
  | [] => []
  | [s] => s
  | s :: rest => s ++ sep ++ pyJoin sep rest

/-- The decimal digit character for a value below ten. -/
def digitChar (n : Nat) : Char := Char.ofNat (48 + n)

/-- Fuelled decimal rendering of a natural number (most significant digit
first); any fuel above the number itself is sufficient. -/
def natCharsAux : Nat → Nat → Str
  | 0, _ => []
  | fuel + 1, n =>
    if n < 10 then [digitChar n]
    else natCharsAux fuel (n / 10) ++ [digitChar (n % 10)]

/-- Python `str(n)` for a natural number. -/
def natChars (n : Nat) : Str := natCharsAux (n + 1) n

/-- Python `str(n)` for an integer. -/
def intStr (n : Int) : Str :=
  if n < 0 then '-' :: natChars n.natAbs else natChars n.toNat

/-! ## The `Dice` data model (class `Dice` in src/dnd5e_sr/data.py) -/

/-- Python exceptions that the modelled code can raise.  `valueError` is
the `MalformedFormula` error of the specification. -/
inductive PyErr
  | valueError
  | indexError
  | typeError
deriving DecidableEq

/-- The parsed operator, `"+"` or `"-"` in the Python code. -/
inductive Op
  | plus
  | minus
deriving DecidableEq

/-- The character an operator occupies in the formula text. -/
def opChar : Op → Char
  | .plus => '+'
  | .minus => '-'

/-- The `multiplier` attribute: Python `None`, an `int`, or the sentinel
string `"multiplier"` stored when the source text contains a `{` brace
placeholder. -/
inductive MultVal
  | vNone
  | vInt (n : Int)
  | sentinel
deriving DecidableEq

/-- The `modifier` attribute: Python `None`, the empty string (kept as-is
when the substring after the operator is empty), or an `int`. -/
inductive ModVal
  | mNone
  | mEmpty
  | mInt (n : Int)
deriving DecidableEq

/-- The parsed state of a `Dice` object: the four attributes set by
`Dice._parse`. -/
structure Dice where
  multiplier : MultVal
  die : Int
  operator : Option Op
  modifier : ModVal
deriving DecidableEq

/-- `Dice._validate_input`: find the first `'d'` (`ValueError` if absent);
the dead guard `index == len(formula)` is kept as in the source; then the
character after the marker is inspected (Python raises `IndexError` when
the marker is the final character) and must be a digit; finally more than
one `'d'` is a `ValueError`. -/
def validate (f : Str) : Except PyErr Unit :=
  match firstIdx 'd' f with
  | none => .error .valueError
  | some index =>
    if index = f.length then .error .valueError
    else
      match f[index + 1]? with
      | none => .error .indexError
      | some c =>
        if c.isDigit = false then .error .valueError
        else if 1 < pyCount 'd' f then .error .valueError
        else .ok ()

/-- The multiplier branch of `Dice._parse`:
`multiplier = "multiplier"` when non-empty and containing `"{"`, otherwise
`int(multiplier) if multiplier else None`. -/
def parseMult (m : Str) : Except PyErr MultVal :=
  if m ≠ [] ∧ '{' ∈ m then .ok .sentinel
  else if m ≠ [] then
    match pyInt m with
    | some v => .ok (.vInt v)
    | none => .error .valueError
  else .ok .vNone

/-- The operator/modifier split of `Dice._parse`: look for `"+"` first,
then `"-"`; `die, modifier = die.split(op)` unpacks exactly two pieces
(three or more raise `ValueError`). -/
def parseTail (rest : Str) : Except PyErr (Option Op × Str × Option Str) :=
  if '+' ∈ rest then
    match pySplit '+' rest with
    | [a, b] => .ok (some .plus, a, some b)
    | _ => .error .valueError
  else if '-' ∈ rest then
    match pySplit '-' rest with
    | [a, b] => .ok (some .minus, a, some b)
    | _ => .error .valueError
  else .ok (none, rest, none)

/-- The modifier branch of `Dice._parse`: `if modifier:` leaves `None` and
the empty string untouched; a brace placeholder becomes `None`; otherwise
`int(modifier.strip())`. -/
def parseMod (mo : Option Str) : Except PyErr ModVal :=
  match mo with
  | none => .ok .mNone
  | some s =>
    if s = [] then .ok .mEmpty
    else if '{' ∈ s then .ok .mNone
    else
      match pyInt (pyStrip s) with
      | some v => .ok (.mInt v)
      | none => .error .valueError

/-- `Dice._parse` (which first calls `Dice._validate_input`): split the
formula at the unique `'d'`, read the multiplier, split off an optional
operator/modifier tail, read the die with `int(die.strip())`, and read the
modifier. -/
def diceParse (f : Str) : Except PyErr Dice :=
  match validate f with
  | .error e => .error e
  | .ok _ =>
    match pySplit 'd' f with
    | [m, rest] =>
      match parseMult m with
      | .error e => .error e
      | .ok mult =>
        match parseTail rest with
        | .error e => .error e
        | .ok (op, dieStr, modStr) =>
          match pyInt (pyStrip dieStr) with
          | none => .error .valueError
          | some die =>
            match parseMod modStr with
            | .error e => .error e
            | .ok md => .ok ⟨mult, die, op, md⟩
    | _ => .error .valueError

/-- Truthiness of the `modifier` attribute (`if self.modifier:`). -/
def modTruthy : ModVal → Bool
  | .mInt n => n != 0
  | _ => false

/-- `self.modifier if self.modifier else 0` (a falsy modifier contributes
zero; a stored `int` contributes itself, also when it is `0`). -/
def modValue : ModVal → Int
  | .mInt n => n
  | _ => 0

/-- The `formula` property: render the parsed components back to text.
A sentinel multiplier renders as `"multiplier*"`; falsy multiplier and
modifier render as the empty string; a present operator with a falsy
modifier renders the word `"modifier"`. -/
def formula (d : Dice) : Str :=
  let multStr : Str :=
    match d.multiplier with
    | .sentinel => ("multiplier*".toList)
    | .vInt n => if n = 0 then [] else intStr n
    | .vNone => []
  let operatorStr : Str :=
    match d.operator with
    | some .plus => ['+']
    | some .minus => ['-']
    | none => []
  let modStr : Str :=
    match d.modifier with
    | .mInt n => if n = 0 then [] else intStr n
    | _ => []
  let modStr : Str :=
    if d.operator.isSome && !(modTruthy d.modifier) then ("modifier".toList)
    else modStr
  multStr ++ 'd' :: (intStr d.die ++ operatorStr ++ modStr)

/-- The `roll_results` property.  The source computes
`multiplier = 0 if not self.multiplier or self.multiplier == "multipier"
else self.multiplier`: the comparison misspells the sentinel
`"multiplier"`, so a sentinel multiplier falls through to
`range(<str>)`, which raises `TypeError`.  `None` and `0` are falsy and
give zero draws; `range` of a negative number is empty; each draw is
`randint(1, self.die)`, which raises `ValueError` when `die < 1`. -/
def roll_results (d : Dice) (entropy : Nat → Int) : Except PyErr (List Int) :=
  match d.multiplier with
  | .sentinel => .error .typeError
  | .vNone => .ok []
  | .vInt n =>
    if n ≤ 0 then .ok []
    else if d.die < 1 then .error .valueError
    else .ok ((List.range n.toNat).map entropy)

/-- `Dice.roll`: sum the roll results, then apply the operator with
`self.modifier if self.modifier else 0`. -/
def roll (d : Dice) (entropy : Nat → Int) : Except PyErr Int :=
  match roll_results d entropy with
  | .error e => .error e
  | .ok results =>
    match d.operator with
    | some .plus => .ok (results.sum + modValue d.modifier)
    | some .minus => .ok (results.sum - modValue d.modifier)
    | none => .ok results.sum

/-- `Dice.roll_as_text`: render each sample in bracket notation joined by
`"+"`, prefixed by the total; when the modifier is truthy and an operator
is present, the total is adjusted and the operator and modifier are
appended inside the parentheses. -/
def roll_as_text (d : Dice) (entropy : Nat → Int) : Except PyErr Str :=
  match roll_results d entropy with
  | .error e => .error e
  | .ok results =>
    let total := results.sum
    let text_results := pyJoin ("+".toList) (results.map (fun r => ("[".toList) ++ intStr r ++ ("]".toList)))
    let roll0 := intStr total ++ (" (".toList) ++ text_results ++ (")".toList)
    match d.modifier with
    | .mInt n =>
      if n ≠ 0 then
        match d.operator with
        | some .plus =>
          .ok (intStr (total + n) ++ (" (".toList) ++ text_results ++ (" + ".toList) ++ intStr n ++ (")".toList))
        | some .minus =>
          .ok (intStr (total - n) ++ (" (".toList) ++ text_results ++ (" - ".toList) ++ intStr n ++ (")".toList))
        | none => .ok roll0
      else .ok roll0
    | _ => .ok roll0

/-- The numeric total that `roll` produces from a fixed sample list
(specification-side restatement of the arithmetic of `Dice.roll`, used to
compare the numeric and textual evaluation paths). -/
def rollTotal (d : Dice) (rs : List Int) : Int :=
  match d.operator with
  | some .plus => rs.sum + modValue d.modifier
  | some .minus => rs.sum - modValue d.modifier
  | none => rs.sum

/-- The textual breakdown (the part inside the parentheses) that
`roll_as_text` renders for a fixed sample list. -/
def breakdown (d : Dice) (rs : List Int) : Str :=
  let tr := pyJoin ("+".toList) (rs.map (fun r => ("[".toList) ++ intStr r ++ ("]".toList)))
  match d.modifier with
  | .mInt n =>
    if n ≠ 0 then
      match d.operator with
      | some .plus => tr ++ (" + ".toList) ++ intStr n
      | some .minus => tr ++ (" - ".toList) ++ intStr n
      | none => tr
    else tr
  | _ => tr

/-! ## Scaling dice (`ScalingDice` and `Spell._get_scaling_dice`) -/

/-- A level entry of the parsed scaling map: a `Dice` object or the
placeholder string `"modifier"` stored when parsing failed. -/
inductive DiceOrStr
  | dice (d : Dice)
  | placeholderStr
deriving DecidableEq

/-- The JSON shape of one `scalingLevelDice` table: a label and a mapping
from level key to formula string (insertion order preserved, keys
distinct). -/
structure ScalingJson where
  label : Str
  scaling : List (Str × Str)
deriving DecidableEq

/-- The `ScalingDice` dataclass. -/
structure ScalingDice where
  label : Str
  scalingmap : List (Str × DiceOrStr)
deriving DecidableEq

/-- The loop body of `getdice` inside `Spell._get_scaling_dice`: each
entry is parsed with `Dice(v)`; `except ValueError` degrades the entry to
the placeholder; any other exception (such as the `IndexError` a
trailing-marker formula raises) propagates and aborts the loop. -/
def buildScalingMap : List (Str × Str) → Except PyErr (List (Str × DiceOrStr))
  | [] => .ok []
  | (k, v) :: rest =>
    match diceParse v with
    | .ok d => (buildScalingMap rest).map (fun r => (k, .dice d) :: r)
    | .error .valueError => (buildScalingMap rest).map (fun r => (k, .placeholderStr) :: r)
    | .error e => .error e

/-- `getdice` inside `Spell._get_scaling_dice`. -/
def getdice (j : ScalingJson) : Except PyErr ScalingDice :=
  (buildScalingMap j.scaling).map (fun m => ⟨j.label, m⟩)

/-- Loop of `Spell._get_scaling_dice` over a list-shaped
`scalingLevelDice` value. -/
def mapGetdice : List ScalingJson → Except PyErr (List ScalingDice)
  | [] => .ok []
  | j :: rest =>
    match getdice j with
    | .error e => .error e
    | .ok s => (mapGetdice rest).map (fun r => s :: r)

/-- `Spell._get_scaling_dice`: the JSON value may be absent, a list of
tables, or a single table; all normalize to a list.  (A falsy present
value, such as an empty list, yields the empty result just as absence
does.) -/
def get_scaling_dice (sld : Option (Sum (List ScalingJson) ScalingJson)) : Except PyErr (List ScalingDice) :=
  match sld with
  | none => .ok []
  | some (.inl dies) => mapGetdice dies
  | some (.inr j) => (getdice j).map (fun s => [s])

/-! ## Description model (`Spell._getdescriptions`) -/

/-- The `DescriptionQuote` dataclass. -/
structure DescriptionQuote where
  paragraphs : List Str
  by_ : Str
deriving DecidableEq

/-- The `DescriptionSubsection` dataclass. -/
structure DescriptionSubsection where
  name : Str
  paragraphs : List Str
deriving DecidableEq

/-- The `DescriptionTable` dataclass. -/
structure DescriptionTable where
  caption : Option Str
  col_labels : List Str
  rows : List (List Str)
deriving DecidableEq

/-- The `Description` union: a plain paragraph string, a bullet list of
strings, a quote, a subsection, or a table. -/
inductive Description
  | text (s : Str)
  | bullets (items : List Str)
  | quote (q : DescriptionQuote)
  | subsection (s : DescriptionSubsection)
  | table (t : DescriptionTable)
deriving DecidableEq

/-- A tagged entry object from the source JSON: its `"type"` tag and the
fields the classifier may read (fields a given tag does not use are
ignored by the code). -/
structure EntryObj where
  type_ : Str
  items : List Str
  entries : List Str
  by_ : Str
  name : Str
  caption : Option Str
  colLabels : List Str
  rows : List (List Str)
deriving DecidableEq

/-- One element of the `entries` JSON list: a plain string or a tagged
object. -/
inductive JEntry
  | jstr (s : Str)
  | jobj (o : EntryObj)
deriving DecidableEq

/-- `Spell._getdescriptions`: classify each entry in order; strings stay
plain text, the four known tags produce their variants, and an object
with any other tag is skipped. -/
def getdescriptions : List JEntry → List Description
  | [] => []
  | .jstr s :: rest => .text s :: getdescriptions rest
  | .jobj o :: rest =>
    if o.type_ = ("list".toList) then .bullets o.items :: getdescriptions rest
    else if o.type_ = ("quote".toList) then .quote ⟨o.entries, o.by_⟩ :: getdescriptions rest
    else if o.type_ = ("entries".toList) then .subsection ⟨o.name, o.entries⟩ :: getdescriptions rest
    else if o.type_ = ("table".toList) then .table ⟨o.caption, o.colLabels, o.rows⟩ :: getdescriptions rest
    else getdescriptions rest

/-- The JSON shape of one `entriesHigherLevel` element: the fields
`Spell._get_higher_lvl_desc` reads. -/
structure SubsectionJson where
  name : Str
  entries : List Str
deriving DecidableEq

/-- `Spell._get_higher_lvl_desc`: absent key (or a falsy empty list)
yields no subsection; otherwise only the first element of the list is
used. -/
def get_higher_lvl_desc (ehl : Option (List SubsectionJson)) : Option DescriptionSubsection :=
  match ehl with
  | none => none
  | some [] => none
  | some (d :: _) => some ⟨d.name, d.entries⟩

/-! ## Character and digit-string lemmas -/

theorem digitChar_isDigit {n : Nat} (h : n < 10) : (digitChar n).isDigit = true := by
  interval_cases n <;> decide

theorem digitChar_toNat {n : Nat} (h : n < 10) : (digitChar n).toNat = 48 + n := by
  interval_cases n <;> decide

theorem isDigit_ne_of {c : Char} (h : c.isDigit = true) :
    c ≠ 'd' ∧ c ≠ '+' ∧ c ≠ '-' ∧ c ≠ '{' := by
  refine ⟨?_, ?_, ?_, ?_⟩ <;> rintro rfl <;> exact absurd h (by decide)

theorem isDigit_not_ws {c : Char} (h : c.isDigit = true) : c.isWhitespace = false := by
  by_contra hw
  rw [Bool.not_eq_false] at hw
  unfold Char.isWhitespace at hw
  simp only [Bool.or_eq_true, decide_eq_true_eq] at hw
  rcases hw with ((rfl | rfl) | rfl) | rfl <;> exact absurd h (by decide)

theorem natCharsAux_congr : ∀ f₁ f₂ n, n < f₁ → n < f₂ → natCharsAux f₁ n = natCharsAux f₂ n := by
  intro f₁
  induction f₁ with
  | zero => intro f₂ n h _; omega
  | succ f ih =>
    intro f₂ n h1 h2
    cases f₂ with
    | zero => omega
    | succ g =>
      simp only [natCharsAux]
      by_cases h10 : n < 10
      · simp [h10]
      · rw [if_neg h10, if_neg h10]
        have hd : n / 10 < n := Nat.div_lt_self (by omega) (by norm_num)
        rw [ih g (n / 10) (by omega) (by omega)]

theorem natChars_eq (n : Nat) :
    natChars n = if n < 10 then [digitChar n] else natChars (n / 10) ++ [digitChar (n % 10)] := by
  show (if n < 10 then [digitChar n] else natCharsAux n (n / 10) ++ [digitChar (n % 10)]) = _
  by_cases h10 : n < 10
  · rw [if_pos h10, if_pos h10]
  · rw [if_neg h10, if_neg h10]
    have hd : n / 10 < n := Nat.div_lt_self (by omega) (by norm_num)
    rw [natCharsAux_congr n (n / 10 + 1) (n / 10) (by omega) (by omega)]
    rfl

theorem natChars_digits (n : Nat) : ∀ c ∈ natChars n, c.isDigit = true := by
  induction n using Nat.strong_induction_on with
  | _ n ih =>
    rw [natChars_eq]
    by_cases h10 : n < 10
    · rw [if_pos h10]
      intro c hc
      rw [List.mem_singleton] at hc
      subst hc
      exact digitChar_isDigit h10
    · rw [if_neg h10]
      intro c hc
      rcases List.mem_append.mp hc with h | h
      · exact ih (n / 10) (Nat.div_lt_self (by omega) (by norm_num)) c h
      · rw [List.mem_singleton] at h
        subst h
        exact digitChar_isDigit (Nat.mod_lt _ (by norm_num))

theorem natChars_ne_nil (n : Nat) : natChars n ≠ [] := by
  rw [natChars_eq]
  split <;> simp

theorem not_mem_natChars {c : Char} (hc : c.isDigit = false) (n : Nat) : c ∉ natChars n := by
  intro hm
  rw [natChars_digits n c hm] at hc
  exact Bool.noConfusion hc

theorem natChars_head (n : Nat) : ∃ c t, natChars n = c :: t ∧ c.isDigit = true := by
  cases h : natChars n with
  | nil => exact absurd h (natChars_ne_nil n)
  | cons c t =>
    refine ⟨c, t, rfl, natChars_digits n c ?_⟩
    rw [h]
    exact List.mem_cons_self c t

theorem pyDigitsAux_append (acc : Nat) (xs ys : Str) :
    pyDigitsAux acc (xs ++ ys) = (pyDigitsAux acc xs).bind (fun v => pyDigitsAux v ys) := by
  induction xs generalizing acc with
  | nil => rfl
  | cons c cs ih =>
    simp only [List.cons_append, pyDigitsAux, List.append_eq]
    by_cases hc : c.isDigit
    · rw [if_pos hc, if_pos hc, ih]
    · rw [if_neg hc, if_neg hc]
      rfl

theorem pyDigitsAux_natChars (n : Nat) :
    ∀ acc, ∃ e, pyDigitsAux acc (natChars n) = some (acc * 10 ^ e + n) := by
  induction n using Nat.strong_induction_on with
  | _ n ih =>
    intro acc
    rw [natChars_eq]
    by_cases h10 : n < 10
    · rw [if_pos h10]
      refine ⟨1, ?_⟩
      simp only [pyDigitsAux, digitChar_isDigit h10, if_true, digitChar_toNat h10]
      rw [pow_one]
      congr 1
      omega
    · rw [if_neg h10]
      obtain ⟨e, he⟩ := ih (n / 10) (Nat.div_lt_self (by omega) (by norm_num)) acc
      refine ⟨e + 1, ?_⟩
      rw [pyDigitsAux_append, he]
      have hm : n % 10 < 10 := Nat.mod_lt _ (by norm_num)
      show pyDigitsAux (acc * 10 ^ e + n / 10) [digitChar (n % 10)] = some (acc * 10 ^ (e + 1) + n)
      simp only [pyDigitsAux, digitChar_isDigit hm, if_true, digitChar_toNat hm]
      congr 1
      have hdm : 10 * (n / 10) + n % 10 = n := Nat.div_add_mod n 10
      have h48 : 48 + n % 10 - 48 = n % 10 := by omega
      rw [h48]
      calc (acc * 10 ^ e + n / 10) * 10 + n % 10
          = acc * (10 ^ e * 10) + (10 * (n / 10) + n % 10) := by ring
        _ = acc * 10 ^ (e + 1) + n := by rw [pow_succ, hdm]

theorem pyDigits?_natChars (n : Nat) : pyDigits? (natChars n) = some n := by
  obtain ⟨c, t, hct, -⟩ := natChars_head n
  obtain ⟨e, he⟩ := pyDigitsAux_natChars n 0
  have h0 : pyDigitsAux 0 (natChars n) = some n := by
    rw [he]
    congr 1
    omega
  unfold pyDigits?
  rw [hct]
  show pyDigitsAux 0 (c :: t) = some n
  rw [← hct]
  exact h0

/-! ## Whitespace stripping and integer reading -/

theorem dropWS_eq_self {s : Str} (h : ∀ c ∈ s, c.isWhitespace = false) : dropWS s = s := by
  cases s with
  | nil => rfl
  | cons c cs =>
    simp only [dropWS]
    rw [h c (List.mem_cons_self c cs)]
    simp

theorem pyStrip_eq_self {s : Str} (h : ∀ c ∈ s, c.isWhitespace = false) : pyStrip s = s := by
  unfold pyStrip
  rw [dropWS_eq_self h]
  rw [dropWS_eq_self (fun c hc => h c (List.mem_reverse.mp hc))]
  exact List.reverse_reverse s

theorem dropWS_append_singleton {c : Char} (hc : c.isWhitespace = false) (xs : Str) :
    dropWS (xs ++ [c]) = dropWS xs ++ [c] := by
  induction xs with
  | nil => simp [dropWS, hc]
  | cons x xs ih =>
    simp only [List.cons_append, dropWS, List.append_eq]
    by_cases hx : x.isWhitespace
    · rw [if_pos hx, if_pos hx, ih]
    · rw [if_neg hx, if_neg hx]
      rfl

theorem pyStrip_cons {c : Char} (t : Str) (hc : c.isWhitespace = false) :
    pyStrip (c :: t) = c :: (dropWS t.reverse).reverse := by
  unfold pyStrip
  have h1 : dropWS (c :: t) = c :: t := by simp [dropWS, hc]
  rw [h1, List.reverse_cons, dropWS_append_singleton hc, List.reverse_append]
  simp

theorem pyIntCore_cons_digit {c : Char} (t : Str) (hc : c.isDigit = true) :
    pyIntCore (c :: t) = (pyDigits? (c :: t)).map (fun v : Nat => (v : Int)) := by
  obtain ⟨-, hplus, hminus, -⟩ := isDigit_ne_of hc
  simp only [pyIntCore, if_neg hminus, if_neg hplus]

theorem pyInt_natChars (n : Nat) : pyInt (natChars n) = some (n : Int) := by
  have hs : pyStrip (natChars n) = natChars n :=
    pyStrip_eq_self (fun c hc => isDigit_not_ws (natChars_digits n c hc))
  obtain ⟨c, t, hct, hcd⟩ := natChars_head n
  unfold pyInt
  rw [hs, hct, pyIntCore_cons_digit t hcd, ← hct, pyDigits?_natChars]
  rfl

theorem pyInt_nonneg_of_head_digit {c : Char} {t : Str} (hc : c.isDigit = true) {v : Int}
    (h : pyInt (c :: t) = some v) : 0 ≤ v := by
  unfold pyInt at h
  rw [pyStrip_cons t (isDigit_not_ws hc), pyIntCore_cons_digit _ hc] at h
  obtain ⟨w, -, hw⟩ := Option.map_eq_some'.mp h
  rw [← hw]
  exact Int.natCast_nonneg w

/-! ## Index, count and split lemmas -/

theorem firstIdx_append_cons {c : Char} {a : Str} (h : c ∉ a) (b : Str) :
    firstIdx c (a ++ c :: b) = some a.length := by
  induction a with
  | nil => simp [firstIdx]
  | cons x xs ih =>
    have hx : ¬x = c := fun hxc => h (hxc ▸ List.mem_cons_self x xs)
    simp only [List.cons_append, firstIdx, if_neg hx, List.append_eq]
    rw [ih (fun hm => h (List.mem_cons_of_mem x hm))]
    rfl

theorem getElem?_append_cons (m rest : Str) (x : Char) :
    (m ++ x :: rest)[m.length + 1]? = rest[0]? := by
  induction m with
  | nil => simp
  | cons y m ih => simpa using ih

theorem pyCount_eq_zero {c : Char} {s : Str} (h : c ∉ s) : pyCount c s = 0 := by
  induction s with
  | nil => rfl
  | cons x xs ih =>
    have hx : ¬x = c := fun hxc => h (hxc ▸ List.mem_cons_self x xs)
    simp only [pyCount, if_neg hx, ih (fun hm => h (List.mem_cons_of_mem x hm))]

theorem pyCount_append (c : Char) (a b : Str) : pyCount c (a ++ b) = pyCount c a + pyCount c b := by
  induction a with
  | nil => simp [pyCount]
  | cons x xs ih =>
    simp only [List.cons_append, pyCount, List.append_eq, ih]
    omega

theorem pySplit_ne_nil (c : Char) (s : Str) : pySplit c s ≠ [] := by
  cases s with
  | nil => simp [pySplit]
  | cons x xs =>
    simp only [pySplit]
    split
    · simp
    · split <;> simp

theorem pySplit_no_sep {c : Char} {s : Str} (h : c ∉ s) : pySplit c s = [s] := by
  induction s with
  | nil => rfl
  | cons x xs ih =>
    have hx : ¬x = c := fun hxc => h (hxc ▸ List.mem_cons_self x xs)
    simp only [pySplit, if_neg hx]
    rw [ih (fun hm => h (List.mem_cons_of_mem x hm))]

theorem pySplit_append_cons {c : Char} {a b : Str} (ha : c ∉ a) (hb : c ∉ b) :
    pySplit c (a ++ c :: b) = [a, b] := by
  induction a with
  | nil =>
    simp only [List.nil_append, pySplit, if_pos rfl, if_true]
    rw [pySplit_no_sep hb]
  | cons x xs ih =>
    have hx : ¬x = c := fun hxc => ha (hxc ▸ List.mem_cons_self x xs)
    simp only [List.cons_append, pySplit, if_neg hx, List.append_eq]
    rw [ih (fun hm => ha (List.mem_cons_of_mem x hm))]

theorem pySplit_singleton_inv {c : Char} {s t : Str} (h : pySplit c s = [t]) :
    s = t ∧ c ∉ s := by
  induction s generalizing t with
  | nil =>
    simp only [pySplit] at h
    injection h with h1 _
    exact ⟨h1, by simp⟩
  | cons x xs ih =>
    simp only [pySplit] at h
    by_cases hx : x = c
    · rw [if_pos hx] at h
      injection h with _ h2
      exact absurd h2 (pySplit_ne_nil c xs)
    · rw [if_neg hx] at h
      cases hps : pySplit c xs with
      | nil => exact absurd hps (pySplit_ne_nil c xs)
      | cons s' ss =>
        rw [hps] at h
        injection h with h1 h2
        subst h2
        obtain ⟨hxs, hmem⟩ := ih hps
        subst hxs
        refine ⟨h1, ?_⟩
        simp only [List.mem_cons]
        rintro (hcx | hcs)
        · exact hx hcx.symm
        · exact hmem hcs

theorem pySplit_pair_inv {c : Char} {s a b : Str} (h : pySplit c s = [a, b]) :
    s = a ++ c :: b ∧ c ∉ a ∧ c ∉ b := by
  induction s generalizing a with
  | nil => simp [pySplit] at h
  | cons x xs ih =>
    simp only [pySplit] at h
    by_cases hx : x = c
    · rw [if_pos hx] at h
      injection h with h1 h2
      subst h1
      obtain ⟨hxs, hmem⟩ := pySplit_singleton_inv h2
      subst hxs
      subst hx
      exact ⟨rfl, by simp, hmem⟩
    · rw [if_neg hx] at h
      cases hps : pySplit c xs with
      | nil => exact absurd hps (pySplit_ne_nil c xs)
      | cons s' ss =>
        rw [hps] at h
        injection h with h1 h2
        subst h1
        have h3 : pySplit c xs = [s', b] := by rw [hps, h2]
        obtain ⟨hxs, hs', hb2⟩ := ih h3
        subst hxs
        refine ⟨rfl, ?_, hb2⟩
        simp only [List.mem_cons]
        rintro (hcx | hcs)
        · exact hx hcx.symm
        · exact hs' hcs

/-! ## Validation and parse-stage lemmas -/

theorem validate_ok {m : Str} {c : Char} {t : Str} (hm : 'd' ∉ m) (hr : 'd' ∉ c :: t)
    (hc : c.isDigit = true) : validate (m ++ 'd' :: c :: t) = .ok () := by
  have hlen : ¬(List.length m = List.length (m ++ 'd' :: c :: t)) := by
    simp [List.length_append]
  have hcount : pyCount 'd' (m ++ 'd' :: c :: t) = 1 := by
    rw [pyCount_append, pyCount_eq_zero hm]
    show 0 + ((if ('d' : Char) = 'd' then 1 else 0) + pyCount 'd' (c :: t)) = 1
    rw [if_pos rfl, pyCount_eq_zero hr]
  unfold validate
  simp only [firstIdx_append_cons hm, hlen, if_false, getElem?_append_cons,
    List.getElem?_cons_zero, hc, hcount]
  simp

theorem validate_head_digit {m rest : Str} (hm : 'd' ∉ m)
    (hv : validate (m ++ 'd' :: rest) = .ok ()) :
    ∃ c t, rest = c :: t ∧ c.isDigit = true := by
  have hlen : ¬(List.length m = List.length (m ++ 'd' :: rest)) := by
    simp [List.length_append]
  unfold validate at hv
  simp only [firstIdx_append_cons hm, hlen, if_false, getElem?_append_cons] at hv
  cases rest with
  | nil => simp at hv
  | cons c t =>
    refine ⟨c, t, rfl, ?_⟩
    simp only [List.getElem?_cons_zero] at hv
    cases hd : c.isDigit with
    | false => simp [hd] at hv
    | true => rfl

theorem parseMult_natChars (m : Nat) : parseMult (natChars m) = .ok (.vInt (m : Int)) := by
  have hbrace : ('{' : Char) ∉ natChars m := not_mem_natChars (by decide) m
  unfold parseMult
  rw [if_neg (fun hand => hbrace hand.2), if_pos (natChars_ne_nil m)]
  simp only [pyInt_natChars]

theorem parseTail_natChars (n k : Nat) (op : Op) :
    parseTail (natChars n ++ opChar op :: natChars k) = .ok (some op, natChars n, some (natChars k)) := by
  have hplusN : ('+' : Char) ∉ natChars n := not_mem_natChars (by decide) n
  have hplusK : ('+' : Char) ∉ natChars k := not_mem_natChars (by decide) k
  have hminusN : ('-' : Char) ∉ natChars n := not_mem_natChars (by decide) n
  have hminusK : ('-' : Char) ∉ natChars k := not_mem_natChars (by decide) k
  cases op with
  | plus =>
    have hmem : ('+' : Char) ∈ natChars n ++ opChar Op.plus :: natChars k :=
      List.mem_append.mpr (Or.inr (List.mem_cons_self '+' (natChars k)))
    unfold parseTail
    rw [if_pos hmem]
    simp only [show opChar Op.plus = '+' from rfl, pySplit_append_cons hplusN hplusK]
  | minus =>
    have hmem1 : ('+' : Char) ∉ natChars n ++ opChar Op.minus :: natChars k := by
      intro hmem
      rcases List.mem_append.mp hmem with h | h
      · exact hplusN h
      · rcases List.mem_cons.mp h with h | h
        · exact absurd h (by decide)
        · exact hplusK h
    have hmem2 : ('-' : Char) ∈ natChars n ++ opChar Op.minus :: natChars k :=
      List.mem_append.mpr (Or.inr (List.mem_cons_self '-' (natChars k)))
    unfold parseTail
    rw [if_neg hmem1, if_pos hmem2]
    simp only [show opChar Op.minus = '-' from rfl, pySplit_append_cons hminusN hminusK]

theorem pyInt_strip_natChars (n : Nat) : pyInt (pyStrip (natChars n)) = some (n : Int) := by
  rw [pyStrip_eq_self (fun c hc => isDigit_not_ws (natChars_digits n c hc))]
  exact pyInt_natChars n

theorem parseMod_natChars (k : Nat) : parseMod (some (natChars k)) = .ok (.mInt (k : Int)) := by
  have hbrace : ('{' : Char) ∉ natChars k := not_mem_natChars (by decide) k
  unfold parseMod
  simp only [natChars_ne_nil k, hbrace, if_false, pyInt_strip_natChars]

theorem intStr_natCast (k : Nat) : intStr (k : Int) = natChars k := by
  unfold intStr
  rw [if_neg (by omega)]
  congr 1

/-! ## Claims -/

/-- Claim C1 (code behavior at the failing input): the formula `"d20"`
parses with multiplier `None` rather than an implicit 1, and for every
entropy source the numeric roll is 0, outside the claimed range [1, 20]:
a falsy multiplier makes `roll_results` draw no samples at all. -/
theorem dice_c1 :
    diceParse ("d20".toList) = .ok ⟨.vNone, 20, none, .mNone⟩ ∧
    ∀ entropy : Nat → Int, roll ⟨.vNone, 20, none, .mNone⟩ entropy = .ok 0 :=
  ⟨rfl, fun _ => rfl⟩

/-- Claim C2 (code behavior at the failing input): a formula with a brace
placeholder multiplier parses to the sentinel, but both evaluator paths
then raise `TypeError` instead of drawing zero samples, because
`roll_results` compares the sentinel against the misspelled string
`"multipier"` and passes the sentinel string itself to `range`. -/
theorem dice_c2 :
    diceParse ("{x}d6".toList) = .ok ⟨.sentinel, 6, none, .mNone⟩ ∧
    ∀ entropy : Nat → Int, roll ⟨.sentinel, 6, none, .mNone⟩ entropy = .error .typeError :=
  ⟨rfl, fun _ => rfl⟩

/-- Claim C3 (code behavior at the failing input): `""`, `"3+4"` and
`"2d6d4"` fail with `ValueError` (the `MalformedFormula` error), but `"d"`
— the die-size marker as last character — fails with `IndexError`, because
the guard compares the marker index with `len(formula)` instead of
`len(formula) - 1` before reading the next character. -/
theorem dice_c3 :
    diceParse ("".toList) = .error .valueError ∧
    diceParse ("d".toList) = .error .indexError ∧
    diceParse ("3+4".toList) = .error .valueError ∧
    diceParse ("2d6d4".toList) = .error .valueError :=
  ⟨rfl, rfl, rfl, rfl⟩

/-- Claim C6 (code behavior at the failing input): in a scaling table the
malformed entry `"d"` raises `IndexError`, which the `except ValueError`
handler does not catch, so the exception escapes `_get_scaling_dice` and
aborts the whole table instead of degrading the one entry. -/
theorem spell_c6 :
    get_scaling_dice (some (.inr ⟨"Damage".toList,
      [("5".toList, "1d6".toList), ("11".toList, "d".toList)]⟩)) = .error .indexError :=
  rfl

/-- Claim C7: the three-entry sequence of a plain string, a list object
and a quote object classifies to exactly the plain text, bullet list and
quote variants, in source order. -/
theorem spell_c7 :
    getdescriptions
      [.jstr ("Intro text.".toList),
       .jobj ⟨"list".toList, ["a".toList, "b".toList], [], [], [], none, [], []⟩,
       .jobj ⟨"quote".toList, [], ["Q1".toList], "Sage".toList, [], none, [], []⟩] =
      [.text ("Intro text.".toList),
       .bullets ["a".toList, "b".toList],
       .quote ⟨["Q1".toList], "Sage".toList⟩] := by
  rfl

/-- Claim C10: a present non-empty `entriesHigherLevel` list yields the
subsection built from exactly its first element (later elements ignored),
and an absent key yields no subsection. -/
theorem spell_c10 :
    (∀ (d : SubsectionJson) (rest : List SubsectionJson),
        get_higher_lvl_desc (some (d :: rest)) = some ⟨d.name, d.entries⟩) ∧
    get_higher_lvl_desc none = none :=
  ⟨fun _ _ => rfl, rfl⟩

/-- Claim C8: an entry object whose tag is none of the four known values
is silently dropped: classifying any sequence containing it equals
classifying the sequence with it removed, so siblings are unaffected and
nothing is raised. -/
theorem spell_c8 (pre post : List JEntry) (o : EntryObj)
    (h1 : o.type_ ≠ ("list".toList)) (h2 : o.type_ ≠ ("quote".toList))
    (h3 : o.type_ ≠ ("entries".toList)) (h4 : o.type_ ≠ ("table".toList)) :
    getdescriptions (pre ++ .jobj o :: post) = getdescriptions (pre ++ post) := by
  induction pre with
  | nil =>
    simp only [List.nil_append, getdescriptions, if_neg h1, if_neg h2, if_neg h3, if_neg h4]
  | cons e pre ih =>
    cases e with
    | jstr s =>
      simp only [List.cons_append, getdescriptions, List.append_eq]
      rw [ih]
    | jobj o2 =>
      simp only [List.cons_append, getdescriptions, List.append_eq]
      split_ifs <;> rw [ih]

/-- Witness for C8 at the concrete unknown tag `"image"`. -/
theorem spell_c8_witness :
    getdescriptions [.jobj ⟨"image".toList, [], [], [], [], none, [], []⟩] = getdescriptions [] :=
  spell_c8 [] [] ⟨"image".toList, [], [], [], [], none, [], []⟩
    (by decide) (by decide) (by decide) (by decide)

/-- Claim C4: for a fixed entropy source (hence a fixed sample sequence),
the numeric total embedded at the front of the text `roll_as_text`
returns is exactly the value `roll` returns on the same samples: the two
evaluation paths apply the operator and modifier identically, never twice
and never in only one path. -/
theorem dice_c4 (d : Dice) (entropy : Nat → Int) (rs : List Int)
    (h : roll_results d entropy = .ok rs) :
    roll d entropy = .ok (rollTotal d rs) ∧
    roll_as_text d entropy =
      .ok (intStr (rollTotal d rs) ++ (" (".toList) ++ breakdown d rs ++ (")".toList)) := by
  obtain ⟨mult, die, op, md⟩ := d
  constructor
  · unfold roll rollTotal
    rw [h]
    cases op with
    | none => rfl
    | some o => cases o <;> rfl
  · unfold roll_as_text rollTotal breakdown
    rw [h]
    cases md with
    | mNone =>
      cases op with
      | none => simp [modValue]
      | some o => cases o <;> simp [modValue]
    | mEmpty =>
      cases op with
      | none => simp [modValue]
      | some o => cases o <;> simp [modValue]
    | mInt n =>
      by_cases hn : n = 0
      · subst hn
        cases op with
        | none => simp [modValue]
        | some o => cases o <;> simp [modValue]
      · cases op with
        | none => simp [hn, modValue]
        | some o => cases o <;> simp [hn, modValue, List.append_assoc]

/-- Witness for C4 on the formula state of "2d6+3" with constant entropy. -/
theorem dice_c4_witness :
    roll_results ⟨.vInt 2, 6, some .plus, .mInt 3⟩ (fun _ => 3) = .ok [3, 3] ∧
    roll ⟨.vInt 2, 6, some .plus, .mInt 3⟩ (fun _ => 3) =
      .ok (rollTotal ⟨.vInt 2, 6, some .plus, .mInt 3⟩ [3, 3]) ∧
    roll_as_text ⟨.vInt 2, 6, some .plus, .mInt 3⟩ (fun _ => 3) =
      .ok (intStr (rollTotal ⟨.vInt 2, 6, some .plus, .mInt 3⟩ [3, 3]) ++ (" (".toList) ++
        breakdown ⟨.vInt 2, 6, some .plus, .mInt 3⟩ [3, 3] ++ (")".toList)) :=
  ⟨rfl, (dice_c4 ⟨.vInt 2, 6, some .plus, .mInt 3⟩ (fun _ => 3) [3, 3] rfl).1,
    (dice_c4 ⟨.vInt 2, 6, some .plus, .mInt 3⟩ (fun _ => 3) [3, 3] rfl).2⟩

/-- Inversion of the operator split: when the remainder after the marker
starts with a digit, the die substring handed to `int()` starts with that
same digit (a leading operator character would contradict the digit). -/
theorem parseTail_head_digit {c : Char} {t : Str} (hc : c.isDigit = true)
    {op : Option Op} {dieStr : Str} {modStr : Option Str}
    (hpt : parseTail (c :: t) = .ok (op, dieStr, modStr)) :
    ∃ u, dieStr = c :: u := by
  unfold parseTail at hpt
  by_cases hplus : ('+' : Char) ∈ c :: t
  · rw [if_pos hplus] at hpt
    cases hps : pySplit '+' (c :: t) with
    | nil => exact absurd hps (pySplit_ne_nil _ _)
    | cons a tl =>
      rw [hps] at hpt
      cases tl with
      | nil => simp at hpt
      | cons b tl2 =>
        cases tl2 with
        | cons x xs => simp at hpt
        | nil =>
          simp only [Except.ok.injEq, Prod.mk.injEq] at hpt
          obtain ⟨-, hdie, -⟩ := hpt
          obtain ⟨hct, -, -⟩ := pySplit_pair_inv hps
          cases a with
          | nil =>
            rw [List.nil_append] at hct
            injection hct with hc1 _
            exact absurd hc1 (isDigit_ne_of hc).2.1
          | cons a0 a' =>
            rw [List.cons_append] at hct
            injection hct with hc1 _
            subst hc1
            exact ⟨a', hdie.symm⟩
  · rw [if_neg hplus] at hpt
    by_cases hminus : ('-' : Char) ∈ c :: t
    · rw [if_pos hminus] at hpt
      cases hps : pySplit '-' (c :: t) with
      | nil => exact absurd hps (pySplit_ne_nil _ _)
      | cons a tl =>
        rw [hps] at hpt
        cases tl with
        | nil => simp at hpt
        | cons b tl2 =>
          cases tl2 with
          | cons x xs => simp at hpt
          | nil =>
            simp only [Except.ok.injEq, Prod.mk.injEq] at hpt
            obtain ⟨-, hdie, -⟩ := hpt
            obtain ⟨hct, -, -⟩ := pySplit_pair_inv hps
            cases a with
            | nil =>
              rw [List.nil_append] at hct
              injection hct with hc1 _
              exact absurd hc1 (isDigit_ne_of hc).2.2.1
            | cons a0 a' =>
              rw [List.cons_append] at hct
              injection hct with hc1 _
              subst hc1
              exact ⟨a', hdie.symm⟩
    · rw [if_neg hminus] at hpt
      simp only [Except.ok.injEq, Prod.mk.injEq] at hpt
      obtain ⟨-, hdie, -⟩ := hpt
      exact ⟨t, hdie.symm⟩

/-- Claim C9 counterexample: it is not the case that every accepted
formula has a positive die size: `"d0"` is accepted with die size 0. -/
theorem dice_c9_counterexample :
    ¬ ∀ (s : Str) (d : Dice), diceParse s = .ok d → 0 < d.die := by
  intro hall
  have h := hall ("d0".toList) ⟨.vNone, 0, none, .mNone⟩ rfl
  exact absurd h (by decide)

/-- Claim C9 (amended): every formula the parser accepts has a
nonnegative die size; the character after the marker must be a digit, so
the die can never parse negative, but it can be zero. -/
theorem dice_c9 (s : Str) (d : Dice) (h : diceParse s = .ok d) : 0 ≤ d.die := by
  unfold diceParse at h
  split at h
  · simp at h
  · rename_i u hv
    split at h
    · rename_i m rest hsp
      split at h
      · simp at h
      · rename_i mult hpm
        split at h
        · simp at h
        · rename_i op dieStr modStr hpt
          split at h
          · simp at h
          · rename_i die hpi
            split at h
            · simp at h
            · rename_i md hpmod
              simp only [Except.ok.injEq] at h
              subst h
              show 0 ≤ die
              obtain ⟨hs_eq, hdm, hdr⟩ := pySplit_pair_inv hsp
              subst hs_eq
              obtain ⟨c, t, hrest, hc⟩ := validate_head_digit hdm hv
              subst hrest
              obtain ⟨u', hdieStr⟩ := parseTail_head_digit hc hpt
              subst hdieStr
              rw [pyStrip_cons u' (isDigit_not_ws hc)] at hpi
              exact pyInt_nonneg_of_head_digit hc hpi
    · simp at h

/-- Witness for the amended C9 at the accepted formula "2d6". -/
theorem dice_c9_witness :
    diceParse ("2d6".toList) = .ok ⟨.vInt 2, 6, none, .mNone⟩ ∧
    (0 : Int) ≤ (Dice.mk (.vInt 2) 6 none .mNone).die :=
  ⟨rfl, dice_c9 ("2d6".toList) ⟨.vInt 2, 6, none, .mNone⟩ rfl⟩

/-- Claim C5: for positive m, n, k and either operator, parsing the
formula text assembled from their decimal renderings recovers exactly
those components, and the `formula` property renders the parsed state
back to the identical text (round-trip identity for literal formulas
without placeholders). -/
theorem dice_c5 (m n k : Nat) (hm : 0 < m) (hn : 0 < n) (hk : 0 < k) (op : Op) :
    diceParse (natChars m ++ 'd' :: (natChars n ++ opChar op :: natChars k)) =
      .ok ⟨.vInt (m : Int), (n : Int), some op, .mInt (k : Int)⟩ ∧
    formula ⟨.vInt (m : Int), (n : Int), some op, .mInt (k : Int)⟩ =
      natChars m ++ 'd' :: (natChars n ++ opChar op :: natChars k) := by
  have hdM : ('d' : Char) ∉ natChars m := not_mem_natChars (by decide) m
  have hdN : ('d' : Char) ∉ natChars n := not_mem_natChars (by decide) n
  have hdK : ('d' : Char) ∉ natChars k := not_mem_natChars (by decide) k
  have hdOp : ('d' : Char) ≠ opChar op := by cases op <;> decide
  have hdRest : ('d' : Char) ∉ natChars n ++ opChar op :: natChars k := by
    intro hmem
    rcases List.mem_append.mp hmem with h | h
    · exact hdN h
    · rcases List.mem_cons.mp h with h | h
      · exact hdOp h
      · exact hdK h
  obtain ⟨c, t, hct, hc⟩ := natChars_head n
  have hrest_eq : natChars n ++ opChar op :: natChars k = c :: (t ++ opChar op :: natChars k) := by
    rw [hct]
    rfl
  constructor
  · have hval : validate (natChars m ++ 'd' :: (natChars n ++ opChar op :: natChars k))
        = .ok () := by
      rw [hrest_eq]
      exact validate_ok hdM (hrest_eq ▸ hdRest) hc
    have hsplit : pySplit 'd' (natChars m ++ 'd' :: (natChars n ++ opChar op :: natChars k))
        = [natChars m, natChars n ++ opChar op :: natChars k] :=
      pySplit_append_cons hdM hdRest
    simp only [diceParse, hval, hsplit, parseMult_natChars, parseTail_natChars,
      pyInt_strip_natChars, parseMod_natChars]
  · have hmne : (m : Int) ≠ 0 := by omega
    have hkne : (k : Int) ≠ 0 := by omega
    cases op with
    | plus =>
      simp [formula, modTruthy, hmne, hkne, intStr_natCast, opChar, List.append_assoc]
    | minus =>
      simp [formula, modTruthy, hmne, hkne, intStr_natCast, opChar, List.append_assoc]

/-- Witness for C5 at m = 2, n = 6, k = 3 with the plus operator (the
formula text "2d6+3"). -/
theorem dice_c5_witness :
    diceParse (natChars 2 ++ 'd' :: (natChars 6 ++ opChar Op.plus :: natChars 3)) =
      .ok ⟨.vInt 2, 6, some .plus, .mInt 3⟩ ∧
    formula ⟨.vInt 2, 6, some .plus, .mInt 3⟩ =
      natChars 2 ++ 'd' :: (natChars 6 ++ opChar Op.plus :: natChars 3) :=
  dice_c5 2 6 3 (by decide) (by decide) (by decide) Op.plus
